import Mathlib

/-!
Verification of the interval remapping pipeline (AoC 2023 day 5 style):
`RangeMap` (per-stage rule list with single-value lookup `get` and range
splitting `get_ranges`) and `RangeMapChain` (labelled stage sequence with
`resolve` and `resolve_ranges`, both stopping early at a given label).
The definitions are a shallow embedding of `src/src/main.rs`; `usize`
values are modelled as `Nat` (the guards in the source make every
subtraction non-negative).
-/

/-- A rule `(destination, source, size)`: the half-open source interval
`[source, source+size)` is translated by `destination - source`. -/
abbrev Rule := Nat × Nat × Nat

/-- One pipeline stage: a list of rules, in stored order. -/
structure RangeMap where
  ranges : List Rule

/-- Helper for `RangeMap.get`: iterate the rules in order, returning the
first rule whose source interval contains `value`, translated. -/
def getFrom : List Rule → Nat → Option Nat
  | [], _ => none
  | (destination, source, size) :: rest, value =>
    if source ≤ value ∧ value < source + size then
      some (destination + value - source)
    else
      getFrom rest value

/-- `RangeMap::get` from the source: first matching rule wins. -/
def RangeMap.get (m : RangeMap) (value : Nat) : Option Nat :=
  getFrom m.ranges value

/-- `RangeMap::get_ranges` from the source: for each rule, intersect the
input interval with the rule's source interval and emit the translated
intersection when it is non-empty. -/
def RangeMap.get_ranges (m : RangeMap) (start size : Nat) : List (Nat × Nat) :=
  m.ranges.filterMap (fun r =>
    let destination := r.1
    let source := r.2.1
    let s_size := r.2.2
    let intersection_start := max start source
    let intersection_end := min (start + size) (source + s_size)
    if intersection_start < intersection_end then
      some (destination + intersection_start - source,
            intersection_end - intersection_start)
    else
      none)

/-- A labelled chain of stages, in pipeline order. -/
structure RangeMapChain where
  range_maps : List (String × RangeMap)

/-- Helper for `RangeMapChain.resolve`: thread the running value through
the stages, returning early at the stop label. -/
def resolveFrom : List (String × RangeMap) → Nat → String → Option Nat
  | [], _, _ => none
  | (range_map_label, range_map) :: rest, mapped, label =>
    match range_map.get mapped with
    | some output =>
      if label = range_map_label then some output
      else resolveFrom rest output label
    | none => none

/-- `RangeMapChain::resolve` from the source. -/
def RangeMapChain.resolve (c : RangeMapChain) (value : Nat) (label : String) :
    Option Nat :=
  resolveFrom c.range_maps value label

/-- Helper for `RangeMapChain.resolve_ranges`: thread the interval set
through the stages, returning early at the stop label. -/
def resolveRangesFrom :
    List (String × RangeMap) → List (Nat × Nat) → String → List (Nat × Nat)
  | [], mapped, _ => mapped
  | (range_map_label, range_map) :: rest, mapped, label =>
    let mapped2 := mapped.flatMap (fun p => range_map.get_ranges p.1 p.2)
    if label = range_map_label then mapped2
    else resolveRangesFrom rest mapped2 label

/-- `RangeMapChain::resolve_ranges` from the source. -/
def RangeMapChain.resolve_ranges (c : RangeMapChain) (ranges : List (Nat × Nat))
    (label : String) : List (Nat × Nat) :=
  resolveRangesFrom c.range_maps ranges label

/-! ### Specification-side definitions (from the spec's words) -/

/-- Whether a rule's source interval meets the input interval non-trivially
(intersection start strictly below intersection end). -/
def ruleIntersects (start size : Nat) (r : Rule) : Bool :=
  max start r.2.1 < min (start + size) (r.2.1 + r.2.2)

/-- The output interval the spec prescribes for an intersecting rule:
the intersection translated by the rule's offset. -/
def ruleOutput (start size : Nat) (r : Rule) : Nat × Nat :=
  (r.1 + max start r.2.1 - r.2.1,
   min (start + size) (r.2.1 + r.2.2) - max start r.2.1)

/-- `get_ranges` as the spec describes it: one output per intersecting
rule, in rule order. -/
def get_ranges_spec (rules : List Rule) (start size : Nat) : List (Nat × Nat) :=
  (rules.filter (ruleIntersects start size)).map (ruleOutput start size)

/-- Whether `v` lies in rule `r`'s source interval. -/
def ruleCovers (r : Rule) (v : Nat) : Bool :=
  decide (r.2.1 ≤ v) && decide (v < r.2.1 + r.2.2)

/-- Whether some rule in the list covers `v`. -/
def coveredBy (rules : List Rule) (v : Nat) : Bool :=
  rules.any (fun r => ruleCovers r v)

/-- Number of values of the input interval covered by some rule. -/
def coveredCount (rules : List Rule) (start size : Nat) : Nat :=
  ((Finset.Ico start (start + size)).filter
    (fun v => coveredBy rules v = true)).card

/-- Two rules have disjoint source intervals. -/
def srcDisjoint (r1 r2 : Rule) : Prop :=
  r1.2.1 + r1.2.2 ≤ r2.2.1 ∨ r2.2.1 + r2.2.2 ≤ r1.2.1

/-- One stage step of the range-set fold: replace the working set by the
flattened concatenation of `get_ranges` over its members. -/
def stageStep (acc : List (Nat × Nat)) (stage : String × RangeMap) :
    List (Nat × Nat) :=
  acc.flatMap (fun p => stage.2.get_ranges p.1 p.2)

/-- Threading a value through stages by `get` alone (no label logic):
`none` as soon as one stage has no matching rule. -/
def threadGet : List (String × RangeMap) → Nat → Option Nat
  | [], v => some v
  | (_, range_map) :: rest, v =>
    match range_map.get v with
    | some output => threadGet rest output
    | none => none

/-! ### Concrete fixtures -/

/-- The stage used by the source's own test `test_resolve_range`. -/
def testMap : RangeMap :=
  ⟨[(100, 0, 50), (200, 50, 50), (500, 100, 100)]⟩

/-! ### Helper lemmas -/

/-- The length `get_ranges` emits for one rule (`0` when the intersection
is empty, by truncated subtraction). -/
def outLen (start size : Nat) (r : Rule) : Nat :=
  min (start + size) (r.2.1 + r.2.2) - max start r.2.1

theorem get_ranges_eq_spec (m : RangeMap) (start size : Nat) :
    m.get_ranges start size = get_ranges_spec m.ranges start size := by
  unfold RangeMap.get_ranges get_ranges_spec
  induction m.ranges with
  | nil => rfl
  | cons r rest ih =>
    by_cases h : max start r.2.1 < min (start + size) (r.2.1 + r.2.2)
    · simp only [List.filterMap_cons, List.filter_cons, ruleIntersects,
        ruleOutput, h, if_pos, decide_eq_true_eq, List.map_cons, ih]
    · simp only [List.filterMap_cons, List.filter_cons, ruleIntersects,
        ruleOutput, h, if_neg, decide_eq_true_eq, ih]
      simp [h]

theorem sum_lengths_eq_sum_outLen (m : RangeMap) (start size : Nat) :
    ((m.get_ranges start size).map Prod.snd).sum
      = (m.ranges.map (outLen start size)).sum := by
  rw [get_ranges_eq_spec]
  unfold get_ranges_spec
  induction m.ranges with
  | nil => rfl
  | cons r rest ih =>
    cases hb : ruleIntersects start size r with
    | true =>
      rw [List.filter_cons_of_pos hb, List.map_cons, List.map_cons,
        List.sum_cons, List.map_cons, List.sum_cons, ih]
      rfl
    | false =>
      have hlt : ¬ max start r.2.1 < min (start + size) (r.2.1 + r.2.2) := by
        simpa [ruleIntersects] using hb
      have h0 : outLen start size r = 0 :=
        Nat.sub_eq_zero_of_le (Nat.le_of_not_lt hlt)
      rw [List.filter_cons_of_neg (by simp [hb]), List.map_cons, List.sum_cons,
        ih, h0, Nat.zero_add]

theorem outLen_eq_card (start size : Nat) (r : Rule) :
    outLen start size r
      = ((Finset.Ico start (start + size)).filter
          (fun v => ruleCovers r v = true)).card := by
  have hset : (Finset.Ico start (start + size)).filter
      (fun v => ruleCovers r v = true)
      = Finset.Ico (max start r.2.1) (min (start + size) (r.2.1 + r.2.2)) := by
    ext v
    simp only [Finset.mem_filter, Finset.mem_Ico, ruleCovers,
      Bool.and_eq_true, decide_eq_true_eq]
    omega
  rw [hset, Nat.card_Ico, outLen]

theorem sum_outLen_eq_coveredCount (rules : List Rule) (start size : Nat)
    (hdisj : rules.Pairwise srcDisjoint) :
    (rules.map (outLen start size)).sum = coveredCount rules start size := by
  induction rules with
  | nil => simp [coveredCount, coveredBy]
  | cons r rest ih =>
    rcases List.pairwise_cons.mp hdisj with ⟨hr, hrest⟩
    have hsplit : (Finset.Ico start (start + size)).filter
        (fun v => coveredBy (r :: rest) v = true)
        = ((Finset.Ico start (start + size)).filter
            (fun v => ruleCovers r v = true))
          ∪ ((Finset.Ico start (start + size)).filter
            (fun v => coveredBy rest v = true)) := by
      ext v
      simp only [Finset.mem_union, Finset.mem_filter, coveredBy, List.any_cons,
        Bool.or_eq_true]
      tauto
    have hdis : Disjoint
        ((Finset.Ico start (start + size)).filter
          (fun v => ruleCovers r v = true))
        ((Finset.Ico start (start + size)).filter
          (fun v => coveredBy rest v = true)) := by
      rw [Finset.disjoint_left]
      intro v hv1 hv2
      have h1 : ruleCovers r v = true := (Finset.mem_filter.mp hv1).2
      have h2 : coveredBy rest v = true := (Finset.mem_filter.mp hv2).2
      rcases List.any_eq_true.mp h2 with ⟨r2, hr2mem, hr2⟩
      have hd : r.2.1 + r.2.2 ≤ r2.2.1 ∨ r2.2.1 + r2.2.2 ≤ r.2.1 :=
        hr r2 hr2mem
      simp only [ruleCovers, Bool.and_eq_true, decide_eq_true_eq] at h1 hr2
      omega
    rw [List.map_cons, List.sum_cons, outLen_eq_card, ih hrest]
    unfold coveredCount
    rw [hsplit, Finset.card_union_of_disjoint hdis]

theorem get_ranges_mem_spec (m : RangeMap) (start size : Nat) :
    ∀ p ∈ m.get_ranges start size, ∃ r ∈ m.ranges,
      ruleIntersects start size r = true ∧ p = ruleOutput start size r := by
  intro p hp
  rw [get_ranges_eq_spec] at hp
  unfold get_ranges_spec at hp
  rcases List.mem_map.mp hp with ⟨r, hr, hout⟩
  rcases List.mem_filter.mp hr with ⟨hrmem, hrint⟩
  exact ⟨r, hrmem, hrint, hout.symm⟩

theorem get_ranges_pos (m : RangeMap) (start size : Nat) :
    ∀ p ∈ m.get_ranges start size, 0 < p.2 := by
  intro p hp
  rcases get_ranges_mem_spec m start size p hp with ⟨r, _, hint, hout⟩
  have hlt : max start r.2.1 < min (start + size) (r.2.1 + r.2.2) := by
    simpa [ruleIntersects] using hint
  rw [hout]
  exact Nat.sub_pos_of_lt hlt

theorem getFrom_none (rules : List Rule) (v : Nat)
    (h : ∀ r ∈ rules, ¬ (r.2.1 ≤ v ∧ v < r.2.1 + r.2.2)) :
    getFrom rules v = none := by
  induction rules with
  | nil => rfl
  | cons r rest ih =>
    obtain ⟨d, src, sz⟩ := r
    rw [getFrom, if_neg (h (d, src, sz) (List.mem_cons_self _ _))]
    exact ih fun r' hr' => h r' (List.mem_cons_of_mem _ hr')

theorem getFrom_first_match (pre : List Rule) (r : Rule) (post : List Rule)
    (v : Nat)
    (hpre : ∀ r' ∈ pre, ¬ (r'.2.1 ≤ v ∧ v < r'.2.1 + r'.2.2))
    (hr : r.2.1 ≤ v ∧ v < r.2.1 + r.2.2) :
    getFrom (pre ++ r :: post) v = some (r.1 + v - r.2.1) := by
  induction pre with
  | nil =>
    obtain ⟨d, src, sz⟩ := r
    rw [List.nil_append, getFrom, if_pos hr]
  | cons r' rest ih =>
    obtain ⟨d', src', sz'⟩ := r'
    rw [List.cons_append, getFrom,
      if_neg (hpre (d', src', sz') (List.mem_cons_self _ _))]
    exact ih fun q hq => hpre q (List.mem_cons_of_mem _ hq)

theorem resolveFrom_no_match (stages : List (String × RangeMap)) (v : Nat)
    (label : String) (h : ∀ s ∈ stages, s.1 ≠ label) :
    resolveFrom stages v label = none := by
  induction stages generalizing v with
  | nil => rfl
  | cons s rest ih =>
    obtain ⟨lbl, m⟩ := s
    have hne : label ≠ lbl := fun he =>
      h (lbl, m) (List.mem_cons_self _ _) he.symm
    cases hg : m.get v with
    | some output =>
      simp only [resolveFrom, hg, if_neg hne]
      exact ih output fun t ht => h t (List.mem_cons_of_mem _ ht)
    | none => simp [resolveFrom, hg]

theorem resolveFrom_match_split (pre : List (String × RangeMap)) (m : RangeMap)
    (post : List (String × RangeMap)) (v v' out : Nat) (label : String)
    (hpre : ∀ s ∈ pre, s.1 ≠ label)
    (hthread : threadGet pre v = some v')
    (hget : m.get v' = some out) :
    resolveFrom (pre ++ (label, m) :: post) v label = some out := by
  induction pre generalizing v with
  | nil =>
    have hv : v = v' := by simpa [threadGet] using hthread
    rw [List.nil_append, hv]
    simp [resolveFrom, hget]
  | cons s rest ih =>
    obtain ⟨lbl, m'⟩ := s
    have hne : label ≠ lbl := fun he =>
      hpre (lbl, m') (List.mem_cons_self _ _) he.symm
    rw [threadGet] at hthread
    rw [List.cons_append]
    cases hg : m'.get v with
    | some output =>
      rw [hg] at hthread
      simp only [resolveFrom, hg, if_neg hne]
      exact ih output (fun t ht => hpre t (List.mem_cons_of_mem _ ht)) hthread
    | none => rw [hg] at hthread; exact absurd hthread (by simp)

theorem resolveFrom_fail (pre : List (String × RangeMap)) (s : String)
    (m : RangeMap) (post : List (String × RangeMap)) (v v' : Nat)
    (label : String)
    (hpre : ∀ t ∈ pre, t.1 ≠ label)
    (hthread : threadGet pre v = some v')
    (hget : m.get v' = none) :
    resolveFrom (pre ++ (s, m) :: post) v label = none := by
  induction pre generalizing v with
  | nil =>
    have hv : v = v' := by simpa [threadGet] using hthread
    rw [List.nil_append, hv]
    simp [resolveFrom, hget]
  | cons t rest ih =>
    obtain ⟨lbl, m'⟩ := t
    have hne : label ≠ lbl := fun he =>
      hpre (lbl, m') (List.mem_cons_self _ _) he.symm
    rw [threadGet] at hthread
    rw [List.cons_append]
    cases hg : m'.get v with
    | some output =>
      rw [hg] at hthread
      simp only [resolveFrom, hg, if_neg hne]
      exact ih output (fun t' ht' => hpre t' (List.mem_cons_of_mem _ ht')) hthread
    | none => rw [hg] at hthread; exact absurd hthread (by simp)

theorem resolveRangesFrom_no_match (stages : List (String × RangeMap))
    (l : List (Nat × Nat)) (label : String)
    (h : ∀ s ∈ stages, s.1 ≠ label) :
    resolveRangesFrom stages l label = stages.foldl stageStep l := by
  induction stages generalizing l with
  | nil => rfl
  | cons s rest ih =>
    obtain ⟨lbl, m⟩ := s
    have hne : label ≠ lbl := fun he =>
      h (lbl, m) (List.mem_cons_self _ _) he.symm
    simp only [resolveRangesFrom, if_neg hne, List.foldl_cons]
    exact ih _ fun t ht => h t (List.mem_cons_of_mem _ ht)

theorem resolveRangesFrom_match_split (pre : List (String × RangeMap))
    (m : RangeMap) (post : List (String × RangeMap)) (l : List (Nat × Nat))
    (label : String) (hpre : ∀ s ∈ pre, s.1 ≠ label) :
    resolveRangesFrom (pre ++ (label, m) :: post) l label
      = (pre ++ [(label, m)]).foldl stageStep l := by
  induction pre generalizing l with
  | nil =>
    simp only [List.nil_append, resolveRangesFrom, if_pos rfl,
      List.foldl_cons, List.foldl_nil]
    rfl
  | cons s rest ih =>
    obtain ⟨lbl, m'⟩ := s
    have hne : label ≠ lbl := fun he =>
      hpre (lbl, m') (List.mem_cons_self _ _) he.symm
    simp only [List.cons_append, resolveRangesFrom, if_neg hne,
      List.foldl_cons]
    exact ih _ fun t ht => hpre t (List.mem_cons_of_mem _ ht)

theorem resolveRangesFrom_preserve_pos (stages : List (String × RangeMap))
    (l : List (Nat × Nat)) (label : String) (h : ∀ p ∈ l, 0 < p.2) :
    ∀ p ∈ resolveRangesFrom stages l label, 0 < p.2 := by
  induction stages generalizing l with
  | nil => exact h
  | cons s rest ih =>
    obtain ⟨lbl, m⟩ := s
    have h2 : ∀ p ∈ l.flatMap (fun p => m.get_ranges p.1 p.2), 0 < p.2 := by
      intro p hp
      rcases List.mem_flatMap.mp hp with ⟨q, _, hpq⟩
      exact get_ranges_pos m q.1 q.2 p hpq
    by_cases hl : label = lbl
    · simpa only [resolveRangesFrom, if_pos hl] using h2
    · simpa only [resolveRangesFrom, if_neg hl] using ih _ h2

theorem resolveRangesFrom_cons_pos (s : String × RangeMap)
    (rest : List (String × RangeMap)) (l : List (Nat × Nat)) (label : String) :
    ∀ p ∈ resolveRangesFrom (s :: rest) l label, 0 < p.2 := by
  obtain ⟨lbl, m⟩ := s
  have h2 : ∀ p ∈ l.flatMap (fun p => m.get_ranges p.1 p.2), 0 < p.2 := by
    intro p hp
    rcases List.mem_flatMap.mp hp with ⟨q, _, hpq⟩
    exact get_ranges_pos m q.1 q.2 p hpq
  by_cases hl : label = lbl
  · simpa only [resolveRangesFrom, if_pos hl] using h2
  · simpa only [resolveRangesFrom, if_neg hl] using
      resolveRangesFrom_preserve_pos rest _ label h2

/-! ### More concrete fixtures -/

/-- Stage from the spec's two-stage scenario: label "soil", rule (50, 98, 2). -/
def soilMap : RangeMap := ⟨[(50, 98, 2)]⟩

/-- Stage from the spec's two-stage scenario: label "location", rule (0, 50, 1). -/
def locationMap : RangeMap := ⟨[(0, 50, 1)]⟩

/-- The spec's two-stage chain: "soil" then "location". -/
def twoChain : RangeMapChain := ⟨[("soil", soilMap), ("location", locationMap)]⟩

/-- A chain whose last stage's label also appears at an earlier stage. -/
def dupChain : RangeMapChain :=
  ⟨[("a", ⟨[(10, 0, 5)]⟩), ("a", ⟨[(100, 0, 50)]⟩)]⟩

/-- The chain with no stages at all. -/
def emptyChain : RangeMapChain := ⟨[]⟩

/-! ### Claim theorems -/

/-- Claim C1: `get_ranges` returns exactly one output interval per rule whose
source interval meets the input non-trivially, in rule order, each output
being the translated intersection; in particular the source's own test values
hold: `get_ranges 25 50 = [(125, 25), (200, 25)]` and
`get_ranges 10 10 = [(110, 10)]` on the test rule list. -/
theorem C1_get_ranges_correct :
    (∀ (m : RangeMap) (start size : Nat),
      m.get_ranges start size = get_ranges_spec m.ranges start size)
    ∧ testMap.get_ranges 25 50 = [(125, 25), (200, 25)]
    ∧ testMap.get_ranges 10 10 = [(110, 10)] :=
  ⟨get_ranges_eq_spec, by decide, by decide⟩

/-- Claim C2: with pairwise-disjoint rule source intervals, the sum of the
lengths emitted by `get_ranges` equals the number of input values covered by
some rule, and every emitted interval is the translated intersection of the
input with one rule's source interval (so its preimage contains only input
values covered by that rule). -/
theorem C2_range_split_exactness (m : RangeMap) (start size : Nat)
    (hdisj : m.ranges.Pairwise srcDisjoint) :
    ((m.get_ranges start size).map Prod.snd).sum
        = coveredCount m.ranges start size
    ∧ ∀ p ∈ m.get_ranges start size, ∃ r ∈ m.ranges,
        p = ruleOutput start size r ∧
        ∀ v, max start r.2.1 ≤ v → v < min (start + size) (r.2.1 + r.2.2) →
          ruleCovers r v = true ∧ start ≤ v ∧ v < start + size := by
  constructor
  · exact (sum_lengths_eq_sum_outLen m start size).trans
      (sum_outLen_eq_coveredCount m.ranges start size hdisj)
  · intro p hp
    rcases get_ranges_mem_spec m start size p hp with ⟨r, hrmem, _, hout⟩
    refine ⟨r, hrmem, hout, ?_⟩
    intro v hv1 hv2
    simp only [ruleCovers, Bool.and_eq_true, decide_eq_true_eq]
    omega

/-- Witness for C2 at the source's test rule list and input (25, 50). -/
theorem C2_witness :
    testMap.ranges.Pairwise srcDisjoint ∧
    ((testMap.get_ranges 25 50).map Prod.snd).sum
      = coveredCount testMap.ranges 25 50 :=
  ⟨by simp [testMap, List.pairwise_cons, srcDisjoint],
   (C2_range_split_exactness testMap 25 50
      (by simp [testMap, List.pairwise_cons, srcDisjoint])).1⟩

/-- Claim C3: `resolve_ranges` folds the interval set through the stages with
`stageStep`; it stops right after the first stage whose label equals the stop
label, and runs through all stages when no label matches. -/
theorem C3_resolve_ranges_fold (c : RangeMapChain) (ranges : List (Nat × Nat))
    (label : String) :
    (∀ pre m post, c.range_maps = pre ++ (label, m) :: post →
        (∀ s ∈ pre, s.1 ≠ label) →
        c.resolve_ranges ranges label
          = (pre ++ [(label, m)]).foldl stageStep ranges)
    ∧ ((∀ s ∈ c.range_maps, s.1 ≠ label) →
        c.resolve_ranges ranges label = c.range_maps.foldl stageStep ranges) := by
  constructor
  · intro pre m post heq hpre
    unfold RangeMapChain.resolve_ranges
    rw [heq]
    exact resolveRangesFrom_match_split pre m post ranges label hpre
  · intro h
    exact resolveRangesFrom_no_match _ ranges label h

/-- Witness for C3 on the spec's two-stage chain. -/
theorem C3_witness :
    twoChain.resolve_ranges [(98, 2)] "soil"
        = ([] ++ [(("soil" : String), soilMap)]).foldl stageStep [(98, 2)]
    ∧ twoChain.resolve_ranges [(98, 2)] "none"
        = twoChain.range_maps.foldl stageStep [(98, 2)] :=
  ⟨(C3_resolve_ranges_fold twoChain [(98, 2)] "soil").1 []
      soilMap [("location", locationMap)] rfl (by simp),
   (C3_resolve_ranges_fold twoChain [(98, 2)] "none").2 (by decide)⟩

/-- Claim C4: `resolve` threads the value through the stages by `get`; it
returns the running value right after a successful stage whose label equals
the stop label, and returns `none` when the chain is exhausted without any
label match (even if every stage mapped the value). -/
theorem C4_resolve (c : RangeMapChain) (value : Nat) (label : String) :
    (∀ pre m post v' out, c.range_maps = pre ++ (label, m) :: post →
        (∀ s ∈ pre, s.1 ≠ label) →
        threadGet pre value = some v' →
        m.get v' = some out →
        c.resolve value label = some out)
    ∧ ((∀ s ∈ c.range_maps, s.1 ≠ label) → c.resolve value label = none) := by
  constructor
  · intro pre m post v' out heq hpre hthread hget
    unfold RangeMapChain.resolve
    rw [heq]
    exact resolveFrom_match_split pre m post value v' out label hpre hthread hget
  · intro h
    exact resolveFrom_no_match _ value label h

/-- Witness for C4 on the spec's two-stage chain. -/
theorem C4_witness :
    twoChain.resolve 98 "soil" = some 50
    ∧ twoChain.resolve 98 "absent" = none :=
  ⟨(C4_resolve twoChain 98 "soil").1 [] soilMap [("location", locationMap)]
      98 50 rfl (by simp) rfl (by decide),
   (C4_resolve twoChain 98 "absent").2 (by decide)⟩

/-- Claim C5: if a stage reached before the stop label (all earlier stages
succeeded with non-matching labels) has no rule covering the running value,
`resolve` returns `none`: there is no unchanged-value passthrough. -/
theorem C5_resolve_fail (c : RangeMapChain) (value : Nat) (label : String) :
    ∀ pre s m post v', c.range_maps = pre ++ (s, m) :: post →
      (∀ t ∈ pre, t.1 ≠ label) →
      threadGet pre value = some v' →
      m.get v' = none →
      c.resolve value label = none := by
  intro pre s m post v' heq hpre hthread hget
  unfold RangeMapChain.resolve
  rw [heq]
  exact resolveFrom_fail pre s m post value v' label hpre hthread hget

/-- Witness for C5: value 1 fails at the first stage of the two-stage chain. -/
theorem C5_witness : twoChain.resolve 1 "location" = none :=
  C5_resolve_fail twoChain 1 "location" [] "soil" soilMap
    [("location", locationMap)] 1 rfl (by simp) rfl (by decide)

/-- Claim C6: when some rule covers the value, `get` answers from the first
covering rule in stored order, translating by that rule's offset. -/
theorem C6_get_first_match (m : RangeMap) (v : Nat) :
    ∀ pre r post, m.ranges = pre ++ r :: post →
      (∀ r' ∈ pre, ¬ (r'.2.1 ≤ v ∧ v < r'.2.1 + r'.2.2)) →
      r.2.1 ≤ v ∧ v < r.2.1 + r.2.2 →
      m.get v = some (r.1 + v - r.2.1) := by
  intro pre r post heq hpre hr
  unfold RangeMap.get
  rw [heq]
  exact getFrom_first_match pre r post v hpre hr

/-- Witness for C6: value 60 hits the second rule of the test rule list. -/
theorem C6_witness : testMap.get 60 = some 210 := by
  simpa using C6_get_first_match testMap 60 [(100, 0, 50)] (200, 50, 50)
    [(500, 100, 100)] rfl (by decide) (by decide)

/-- Claim C7: when no rule's source interval covers the value, `get`
returns `none`. -/
theorem C7_get_none (m : RangeMap) (v : Nat)
    (h : ∀ r ∈ m.ranges, ¬ (r.2.1 ≤ v ∧ v < r.2.1 + r.2.2)) :
    m.get v = none :=
  getFrom_none m.ranges v h

/-- Witness for C7: value 250 is outside every test rule's source interval. -/
theorem C7_witness : testMap.get 250 = none :=
  C7_get_none testMap 250 (by decide)

/-- Claim C8 (as stated) fails: in a chain whose last stage's label also
appears at an earlier stage, stopping at the last stage's label exits at the
first occurrence, which differs from running the whole chain. -/
theorem C8_counterexample :
    dupChain.range_maps.map Prod.fst = ["a", "a"]
    ∧ (∀ s ∈ dupChain.range_maps, s.1 ≠ "zzz")
    ∧ dupChain.resolve_ranges [(0, 5)] "a"
        ≠ dupChain.resolve_ranges [(0, 5)] "zzz" :=
  ⟨rfl, by decide, by decide⟩

/-- Claim C8, amended: when the last stage's label does not occur at any
earlier stage, `resolve_ranges` with that label as stop label agrees with
`resolve_ranges` under a stop label matching no stage. -/
theorem C8_last_label_eq_no_match (c : RangeMapChain)
    (init : List (String × RangeMap)) (lastLabel : String) (m : RangeMap)
    (other : String) (ranges : List (Nat × Nat))
    (hchain : c.range_maps = init ++ [(lastLabel, m)])
    (hinit : ∀ s ∈ init, s.1 ≠ lastLabel)
    (hother : ∀ s ∈ c.range_maps, s.1 ≠ other) :
    c.resolve_ranges ranges lastLabel = c.resolve_ranges ranges other := by
  unfold RangeMapChain.resolve_ranges
  rw [hchain] at hother ⊢
  rw [resolveRangesFrom_match_split init m [] ranges lastLabel hinit,
    resolveRangesFrom_no_match _ ranges other hother]

/-- Witness for the amended C8 on the spec's two-stage chain. -/
theorem C8_witness :
    twoChain.resolve_ranges [(98, 2)] "location"
      = twoChain.resolve_ranges [(98, 2)] "none" :=
  C8_last_label_eq_no_match twoChain [("soil", soilMap)] "location"
    locationMap "none" [(98, 2)] rfl (by decide) (by decide)

/-- Claim C9: a length-0 input interval yields no output intervals. -/
theorem C9_get_ranges_empty_input (m : RangeMap) (start : Nat) :
    m.get_ranges start 0 = [] := by
  rw [get_ranges_eq_spec]
  unfold get_ranges_spec
  induction m.ranges with
  | nil => rfl
  | cons r rest ih =>
    have h : ¬ ruleIntersects start 0 r = true := by
      simp only [ruleIntersects, decide_eq_true_eq]
      omega
    rw [List.filter_cons_of_neg h, ih]

/-- Claim C10 (as stated) fails: for the chain with no stages,
`resolve_ranges` returns the input set unchanged, so a zero-length input
interval survives to the output. -/
theorem C10_counterexample :
    ¬ (∀ p ∈ emptyChain.resolve_ranges [(5, 0)] "x", 0 < p.2) := by
  decide

/-- Claim C10, amended: every interval emitted by `get_ranges` has strictly
positive length, and every interval returned by `resolve_ranges` of a chain
with at least one stage has strictly positive length. -/
theorem C10_positive_lengths :
    (∀ (m : RangeMap) (start size : Nat),
      ∀ p ∈ m.get_ranges start size, 0 < p.2)
    ∧ (∀ (c : RangeMapChain) (ranges : List (Nat × Nat)) (label : String),
        c.range_maps ≠ [] →
        ∀ p ∈ c.resolve_ranges ranges label, 0 < p.2) := by
  constructor
  · exact get_ranges_pos
  · intro c ranges label hne p hp
    unfold RangeMapChain.resolve_ranges at hp
    cases hc : c.range_maps with
    | nil => exact absurd hc hne
    | cons s rest =>
      rw [hc] at hp
      exact resolveRangesFrom_cons_pos s rest ranges label p hp

/-- Witness for the amended C10 at concrete inputs. -/
theorem C10_witness :
    0 < ((125, 25) : Nat × Nat).2 ∧ 0 < ((0, 1) : Nat × Nat).2 :=
  ⟨C10_positive_lengths.1 testMap 25 50 (125, 25) (by decide),
   C10_positive_lengths.2 twoChain [(98, 2)] "location"
      (by simp [twoChain]) (0, 1) (by decide)⟩
